import Mathlib

/-!
Verification of the ownership-ledger / cache / group-view core of the
coins2025 repository.  The warehouse tables are embedded as Lean lists of
typed rows, the SQL queries of `app/services/bigquery_service.py` as pure
functions over those lists, and the in-memory query cache as an association
list together with the key, lookup, store and invalidation functions of the
same module.
-/

/-- A row of the `history` table (an OwnershipEvent of the ledger).
`date` and `created_at` carry timestamps, embedded as integers
(the source stores TIMESTAMP columns, which are totally ordered). -/
structure HistoryEvent where
  id : String
  name : String
  coin_id : String
  date : Int
  created_at : Int
  created_by : String
  is_active : Bool
deriving DecidableEq

/-- The window order `ORDER BY h.date DESC, h.created_at DESC` used by every
`latest_ownership` / `latest_records` CTE in `bigquery_service.py`:
`betterKey a b` holds when `a` sorts strictly before `b` in that window,
i.e. `a`'s `(date, created_at)` tuple is strictly greater. -/
def betterKey (a b : HistoryEvent) : Bool :=
  b.date < a.date || (a.date == b.date && b.created_at < a.created_at)

/-- Strict order on `(date, created_at)` tuples, used to state claims. -/
def keyLt (a b : HistoryEvent) : Prop :=
  a.date < b.date ∨ (a.date = b.date ∧ a.created_at < b.created_at)

/-- The `rn = 1` row of
`ROW_NUMBER() OVER (PARTITION BY h.name, h.coin_id ORDER BY h.date DESC, h.created_at DESC)`
restricted to one partition: the row whose `(date, created_at)` tuple is
maximal.  When two rows tie on both columns the engine numbers them
arbitrarily; the embedding keeps the earlier list element. -/
def latestEvent : List HistoryEvent → Option HistoryEvent
  | [] => none
  | x :: xs => some (xs.foldl (fun acc e => if betterKey e acc then e else acc) x)

/-- The WHERE clause of `get_current_coin_ownership`:
`h.coin_id = @coin_id` plus, when a name is supplied, `h.name = @name`. -/
def eventInScope (coin : String) (who : Option String) (e : HistoryEvent) : Bool :=
  e.coin_id == coin && (match who with | none => true | some nm => e.name == nm)

/-- Embedding of `BigQueryService.get_current_coin_ownership` (bigquery_service.py:407-429):
per `(name, coin_id)` partition of the scoped history, keep the `rn = 1`
row of the latest-record window and return `(name, acquired_date)` for the
partitions whose latest row has `is_active = true`.  With `coin_id` fixed
by the WHERE clause the partitions are the distinct names. -/
def get_current_coin_ownership (history : List HistoryEvent) (coin : String)
    (who : Option String) : List (String × Int) :=
  let sel := history.filter (eventInScope coin who)
  ((sel.map (·.name)).dedup).filterMap (fun nm =>
    match latestEvent (sel.filter (fun e => e.name == nm)) with
    | some e => if e.is_active then some (e.name, e.date) else none
    | none => none)

/-- Embedding of `BigQueryService.add_coin_ownership` (bigquery_service.py:305-355) at the
ledger level.  `record_id` and `current_time` stand for the generated
`uuid.uuid4()` and the server clock `dt.now()`.  The source first resolves
current ownership for `(coin_id, name)`; a non-empty result aborts with the
already-owned conflict before any insert, otherwise exactly one acquisition
row is appended and the new row id returned. -/
def add_coin_ownership (history : List HistoryEvent) (nm coin : String)
    (date : Int) (record_id : String) (current_time : Int)
    (created_by : Option String) : Except String (List HistoryEvent × String) :=
  match get_current_coin_ownership history coin (some nm) with
  | _ :: _ => Except.error ("User " ++ nm ++ " already owns coin " ++ coin)
  | [] =>
      Except.ok (history ++
        [{ id := record_id, name := nm, coin_id := coin, date := date,
           created_at := current_time, created_by := created_by.getD "api",
           is_active := true }], record_id)

/-- Embedding of `BigQueryService.remove_coin_ownership` (357-405): the dual guard — a
removal row (`is_active = false`) is appended only when current ownership
resolves non-empty. -/
def remove_coin_ownership (history : List HistoryEvent) (nm coin : String)
    (removal_date : Int) (record_id : String) (current_time : Int)
    (created_by : Option String) : Except String (List HistoryEvent × String) :=
  match get_current_coin_ownership history coin (some nm) with
  | [] => Except.error ("User " ++ nm ++ " does not currently own coin " ++ coin)
  | _ :: _ =>
      Except.ok (history ++
        [{ id := record_id, name := nm, coin_id := coin, date := removal_date,
           created_at := current_time, created_by := created_by.getD "api",
           is_active := false }], record_id)

/-- A `HistoryCreate` payload (app/models/history.py): the CSV columns
`name`, `id` (the coin identifier) and `date`. -/
structure HistoryCreate where
  name : String
  id : String
  date : Int
deriving DecidableEq

/-- A raw row of a history CSV upload: columns `name`, `id`, `date`. -/
structure HistoryCsvRow where
  name : String
  id : String
  date : Int
deriving DecidableEq

/-- Embedding of `HistoryService.process_history_csv_dataframe` followed by
`dataframe_to_history_create_list` (history_service.py:30-75): the dataframe
stage renames `id` to `coin_id`, stamps fresh ids, `created_by` and
`is_active = true`; the conversion stage then keeps exactly
`(name, coin_id, date)` per row — the enhanced fields are regenerated by
`import_history_batch` at write time, so only the triple survives. -/
def process_history_rows (rows : List HistoryCsvRow) : List HistoryCreate :=
  rows.map (fun r => { name := r.name, id := r.id, date := r.date })

/-- Embedding of `BigQueryService.import_history_batch` (1015-1051): one server timestamp
`current_time` is taken for the whole batch; each entry becomes a row with a
freshly generated uuid4 (the generated stream is passed here as `ids`),
`coin_id` taken from the entry's `id` field, `created_by = "import"` and
`is_active = True` unconditionally; the rows are appended in one batch. -/
def import_history_batch (history : List HistoryEvent)
    (entries : List HistoryCreate) (ids : List String) (current_time : Int) :
    List HistoryEvent :=
  history ++ (entries.zip ids).map (fun p =>
    { id := p.2, name := p.1.name, coin_id := p.1.id, date := p.1.date,
      created_at := current_time, created_by := "import", is_active := true })

/-- A scalar query parameter as the source builds it: every call site of
`_get_cached_or_query` passes string-typed or integer-typed values (floats
are stringified before they reach a params dict). -/
inductive PValue where
  | str (s : String)
  | int (n : Int)
deriving DecidableEq

/-- Python `repr` of a parameter value as it appears inside
`str(sorted(params.items()))`: strings quoted, integers plain. -/
def pyReprValue : PValue → String
  | PValue.str s => "\x27" ++ s ++ "\x27"
  | PValue.int n => toString n

/-- Python `str` of one `(key, value)` item of a params dict. -/
def pyReprPair (kv : String × PValue) : String :=
  "(" ++ "\x27" ++ kv.1 ++ "\x27" ++ ", " ++ pyReprValue kv.2 ++ ")"

/-- Python `str` of a list of `(key, value)` items. -/
def pyReprList (l : List (String × PValue)) : String :=
  "[" ++ String.intercalate ", " (l.map pyReprPair) ++ "]"

/-- Ordering on parameter values.  Python compares the values of two items
only when their keys are equal; for items of a dict the keys are distinct,
so the cross-type rows of this table are never reached (Python would raise
there) and any total choice for them is sound. -/
def pvalLe : PValue → PValue → Bool
  | PValue.str a, PValue.str b => decide (a ≤ b)
  | PValue.int a, PValue.int b => decide (a ≤ b)
  | PValue.int _, PValue.str _ => true
  | PValue.str _, PValue.int _ => false

/-- Python tuple comparison on `(key, value)` items: lexicographic, key
first. -/
def paramLe (a b : String × PValue) : Bool :=
  decide (a.1 < b.1) || (a.1 == b.1 && pvalLe a.2 b.2)

/-- Embedding of `sorted(params.items())`. -/
def sortParams (params : List (String × PValue)) : List (String × PValue) :=
  params.mergeSort paramLe

/-- Embedding of `BigQueryService._get_cache_key` (22-24):
`f"{query}:{str(sorted(params.items()))}"`. -/
def get_cache_key (query : String) (params : List (String × PValue)) : String :=
  query ++ ":" ++ pyReprList (sortParams params)

/-- The process-wide query cache: an association of cache key to
`(rows, cached_at)`.  `ρ` is the row-list type of the cached query, opaque
to the cache itself. -/
abbrev Cache (ρ : Type) : Type := List (String × ρ × Int)

/-- Membership/indexing of the cache dict (`cache_key in self._cache`,
`self._cache[cache_key]`). -/
def lookupCache {ρ : Type} : Cache ρ → String → Option (ρ × Int)
  | [], _ => none
  | (k, v, t) :: rest, key => if k == key then some (v, t) else lookupCache rest key

/-- Dict assignment `self._cache[cache_key] = (results, datetime.now())`:
any previous binding of the key is replaced. -/
def storeCache {ρ : Type} (cache : Cache ρ) (key : String) (v : ρ) (t : Int) :
    Cache ρ :=
  cache.filter (fun kv => kv.1 != key) ++ [(key, v, t)]

/-- Embedding of `BigQueryService._get_cached_or_query` (26-69).  `adapter` stands for the
outcome of the warehouse call `execute_query`; `now` is the clock at the
freshness check and `now2` the clock read again when the result is stored
(line 67 runs after the query returns).  The pair returned is the outcome
seen by the caller together with the cache left behind. -/
def get_cached_or_query {ρ : Type} (cache : Cache ρ) (ttl : Int)
    (query : String) (params : List (String × PValue))
    (adapter : Except String ρ) (now now2 : Int) :
    Except String ρ × Cache ρ :=
  match lookupCache cache (get_cache_key query params) with
  | some (data, t) =>
      if now - t < ttl then (Except.ok data, cache)
      else
        match adapter with
        | Except.ok rows =>
            (Except.ok rows, storeCache cache (get_cache_key query params) rows now2)
        | Except.error e => (Except.error e, cache)
  | none =>
      match adapter with
      | Except.ok rows =>
          (Except.ok rows, storeCache cache (get_cache_key query params) rows now2)
      | Except.error e => (Except.error e, cache)

/-- The rows a lookup would serve from the cache alone: `some rows` exactly
when an entry exists and is fresh (`now - cached_at < ttl`). -/
def freshAt {ρ : Type} (cache : Cache ρ) (key : String) (now ttl : Int) :
    Option ρ :=
  match lookupCache cache key with
  | some (rows, t) => if now - t < ttl then some rows else none
  | none => none

/-- Python `str.lower()` on one character, on the ASCII range cache keys
are made of (embedded directly because the library `toLower` is not
kernel-reducible). -/
def charLower (c : Char) : Char :=
  if 65 <= c.toNat && c.toNat <= 90 then Char.ofNat (c.toNat + 32) else c

/-- Python `key.lower()`. -/
def strLower (s : String) : String :=
  String.mk (s.data.map charLower)

/-- Whether `needle` starts the character list. -/
def charsStartWith : List Char → List Char → Bool
  | [], _ => true
  | _ :: _, [] => false
  | a :: as, b :: bs => a == b && charsStartWith as bs

/-- Whether `needle` occurs contiguously in the character list. -/
def charsContain (needle : List Char) : List Char → Bool
  | [] => needle.isEmpty
  | c :: cs => charsStartWith needle (c :: cs) || charsContain needle cs

/-- Python substring containment `needle in hay`. -/
def strContains (hay needle : String) : Bool :=
  charsContain needle.toList hay.toList

/-- The `keys_to_remove` predicate of `_invalidate_ownership_cache`
(460-476): the key contains the affected coin id, user name or group id, or
the lowercased key contains the ownership markers. -/
def ownershipKeyAffected (coin user group : Option String) (key : String) :
    Bool :=
  (match coin with | some c => strContains key c | none => false) ||
  (match user with | some u => strContains key u | none => false) ||
  (match group with | some g => strContains key g | none => false) ||
  strContains (strLower key) "ownership" ||
  strContains (strLower key) "coins_with_ownership"

/-- Embedding of `BigQueryService._invalidate_ownership_cache` (460-476): delete every
cache entry whose key is affected. -/
def invalidate_ownership_cache {ρ : Type} (cache : Cache ρ)
    (coin user group : Option String) : Cache ρ :=
  cache.filter (fun kv => !(ownershipKeyAffected coin user group kv.1))

/-- The cache effect of the success paths of `add_coin_ownership` and
`remove_coin_ownership`: both await
`_invalidate_ownership_cache(coin_id=coin_id, user_name=name)` (353, 403)
right before returning.  (The ownership check earlier in those calls reads
through `_get_cached_or_query`; the key of any entry that read may add
carries both the coin id and the name and is therefore removed here too.) -/
def ownership_write_cache_after {ρ : Type} (cache : Cache ρ)
    (nm coin : String) : Cache ρ :=
  invalidate_ownership_cache cache (some coin) (some nm) none

/-- A row of the `groups` table. -/
structure GroupRow where
  id : String
  group_key : String
  name : String
  is_active : Bool
deriving DecidableEq

/-- Embedding of `BigQueryService.get_group_by_key` (608-617) at the table level: an
active row with the given key, if any. -/
def get_group_by_key (groups : List GroupRow) (key : String) : Option GroupRow :=
  (groups.filter (fun g => g.group_key == key && g.is_active)).head?

/-- Embedding of `BigQueryService._invalidate_group_cache` (761-772): delete every cache
entry whose lowercased key contains `"group"`. -/
def invalidate_group_cache {ρ : Type} (cache : Cache ρ) : Cache ρ :=
  cache.filter (fun kv => !(strContains (strLower kv.1) "group"))

/-- Embedding of `BigQueryService.create_group` (479-521); `group_id` stands for the
generated uuid4.  The last step of the source is
`self._invalidate_group_cache()` WITHOUT `await` (line 519): calling an
async function merely builds a coroutine object, which is never awaited, so
the body of `_invalidate_group_cache` never runs and the shared cache is
returned unchanged.  (Contrast lines 353/403, where the ownership
invalidation is awaited.  The same unawaited call ends `update_group`,
`delete_group`, `add_user_to_group`, `update_group_user` and
`remove_user_from_group`, lines 551/593/670/703/735.) -/
def create_group {ρ : Type} (groups : List GroupRow) (cache : Cache ρ)
    (group_key name group_id : String) :
    Except String (List GroupRow × Cache ρ × String) :=
  match get_group_by_key groups group_key with
  | some _ =>
      Except.error ("Group with key \x27" ++ group_key ++ "\x27 already exists")
  | none =>
      Except.ok (groups ++
        [{ id := group_id, group_key := group_key, name := name,
           is_active := true }], cache, group_id)

/-- A Coin catalog row: the nine immutable catalog fields of the `catalog`
table (app/models/coin.py, schema at bigquery_service.py:911-923).  `value`
is the monetary denomination (a FLOAT column never computed with in the
core; embedded as a rational). -/
structure Coin where
  coin_type : String
  year : Int
  country : String
  series : String
  value : Rat
  coin_id : String
  image_url : Option String
  feature : Option String
  volume : Option String
deriving DecidableEq

/-- The classification a coin upload row receives (admin.py:90-115). -/
inductive UploadStatus where
  | new
  | duplicate
  | conflict
deriving DecidableEq

/-- Modelled from the spec: `get_existing_coins_features` is called by
`upload_coins_csv` (admin.py:87) but absent from the sources; per the data
model (§3: `coin_id` globally unique, catalog rows immutable) it maps each
uploaded id present in the catalog to that coin's stored `feature`. -/
def get_existing_coins_features (catalog : List Coin)
    (coin_ids : List String) : List (String × Option String) :=
  (catalog.filter (fun c => coin_ids.contains c.coin_id)).map
    (fun c => (c.coin_id, c.feature))

/-- Python's `x or ''` normalization of a possibly-missing feature cell. -/
def normFeature (f : Option String) : String := f.getD ""

/-- The classification of one uploaded coin against the feature map
(admin.py:95-115): absent id → `new`; present and the empty-normalized
features are equal → `duplicate`; present and unequal → `conflict`. -/
def classify_coin (existing : List (String × Option String)) (c : Coin) :
    UploadStatus :=
  match List.lookup c.coin_id existing with
  | some dbf =>
      if normFeature dbf != normFeature c.feature then UploadStatus.conflict
      else UploadStatus.duplicate
  | none => UploadStatus.new

/-- The classification pass of `upload_coins_csv` (admin.py:85-115): every
uploaded row paired with its status, judged against the stored features of
the uploaded ids. -/
def classify_coin_upload (catalog : List Coin) (uploaded : List Coin) :
    List (Coin × UploadStatus) :=
  uploaded.map (fun c =>
    (c, classify_coin
      (get_existing_coins_features catalog (uploaded.map (·.coin_id))) c))

/-- Embedding of `BigQueryService.get_existing_coin_ids` (774-790):
`SELECT DISTINCT coin_id ... WHERE coin_id IN (...)`. -/
def get_existing_coin_ids (catalog : List Coin) (ids : List String) :
    List String :=
  ((catalog.filter (fun c => ids.contains c.coin_id)).map (·.coin_id)).dedup

/-- The commit-time guard of `import_selected_coins` (admin.py:133-170):
with nothing selected the request is rejected; if any selected id already
exists in the catalog the whole import aborts before any write; otherwise
the selected rows are appended (`import_coins`). -/
def import_selected (catalog : List Coin) (selected : List Coin) :
    Except String (List Coin) :=
  if selected.isEmpty then Except.error "No coins selected for import"
  else
    match get_existing_coin_ids catalog (selected.map (·.coin_id)) with
    | [] => Except.ok (catalog ++ selected)
    | l =>
        Except.error ("The following coin_ids already exist: " ++
          String.intercalate ", " l)

/-- A row of the `group_users` table (a GroupMember). -/
structure GroupUser where
  id : String
  group_id : String
  name : String
  alias_ : Option String
  is_active : Bool
deriving DecidableEq

/-- The filters accepted by `get_coins_with_ownership` (212-241). -/
structure CoinFilters where
  coin_type : Option String
  value : Option Rat
  country : Option String
  series : Option String
  owned_by : Option String
  ownership_status : Option String
deriving DecidableEq

/-- The coin-level WHERE clauses of `get_coins_with_ownership` (216-230). -/
def coinMatchesFilters (f : CoinFilters) (c : Coin) : Bool :=
  (match f.coin_type with | some v => c.coin_type == v | none => true) &&
  (match f.value with | some v => c.value == v | none => true) &&
  (match f.country with | some v => c.country == v | none => true) &&
  (match f.series with | some v => c.series == v | none => true)

/-- Insertion into a sorted list (used to embed the deterministic part of a
SQL `ORDER BY`; ties keep their relative order). -/
def insertBy {α : Type} (le : α → α → Bool) (a : α) : List α → List α
  | [] => [a]
  | b :: bs => if le a b then a :: b :: bs else b :: insertBy le a bs

/-- Stable insertion sort by a boolean comparison. -/
def sortBy {α : Type} (le : α → α → Bool) : List α → List α
  | [] => []
  | a :: as => insertBy le a (sortBy le as)

/-- Embedding of `ORDER BY year DESC, country ASC` (276). -/
def coinOrder (a b : Coin) : Bool :=
  decide (b.year < a.year) || (a.year == b.year && decide (a.country ≤ b.country))

/-- The `latest_ownership` CTE of `get_coins_with_ownership` (245-250): the
`rn = 1` row of each `(name, coin_id)` partition of the whole history. -/
def latest_ownership (history : List HistoryEvent) : List HistoryEvent :=
  ((history.map (fun e => (e.name, e.coin_id))).dedup).filterMap
    (fun p => latestEvent (history.filter
      (fun e => e.name == p.1 && e.coin_id == p.2)))

/-- One element of the aggregated `owners` array:
`STRUCT(owner, owner_alias as alias, acquired_date)` (267-273). -/
structure OwnerEntry where
  owner : String
  alias_ : String
  acquired_date : Int
deriving DecidableEq

/-- A grouped row of `get_coins_with_ownership`: the nine catalog columns
with the aggregated owners array. -/
structure CoinView where
  coin : Coin
  owners : List OwnerEntry
deriving DecidableEq

/-- The LEFT JOIN of one latest active ownership row against `group_users`
(260-261): rows match on name, the requested group and an active
membership; with no match the owner survives with a NULL alias, which the
SELECT coalesces to the raw name (255) — non-members are NOT dropped
here. -/
def ownerEntriesFor (group_users : List GroupUser) (gid : String)
    (lo : HistoryEvent) : List OwnerEntry :=
  let gus := group_users.filter
    (fun gu => gu.name == lo.name && gu.group_id == gid && gu.is_active)
  if gus.isEmpty then [⟨lo.name, lo.name, lo.date⟩]
  else gus.map (fun gu => ⟨lo.name, gu.alias_.getD lo.name, lo.date⟩)

/-- The owners array aggregated for one coin (258-273): the latest active
ownership rows of the coin, joined with the group membership, ordered by
acquisition date descending. -/
def coin_owners (history : List HistoryEvent) (group_users : List GroupUser)
    (gid : String) (c : Coin) : List OwnerEntry :=
  sortBy (fun a b => decide (b.acquired_date ≤ a.acquired_date))
    (((latest_ownership history).filter
        (fun lo => lo.coin_id == c.coin_id && lo.is_active)).flatMap
      (ownerEntriesFor group_users gid))

/-- Embedding of `BigQueryService.get_coins_with_ownership` (210-280).  Returns `none`
when the `owned_by` or `ownership_status` filter is present: the WHERE
clause either generates references an alias `h` that does not exist in the
query (the CTE aliases are `c`, `lo`, `gu`), so the warehouse rejects it.
Otherwise: catalog rows matching the coin filters, grouped (the GROUP BY
key is all nine catalog columns), each with its aggregated owners array,
ordered by year descending then country ascending, paginated with
`OFFSET`/`LIMIT`. -/
def get_coins_with_ownership (catalog : List Coin)
    (history : List HistoryEvent) (group_users : List GroupUser)
    (gid : String) (f : CoinFilters) (limit offset : Nat) :
    Option (List CoinView) :=
  if f.owned_by.isSome || f.ownership_status.isSome then none
  else some
    (((((sortBy coinOrder ((catalog.filter (coinMatchesFilters f)).dedup)).drop
      offset).take limit)).map
        (fun c => ⟨c, coin_owners history group_users gid c⟩))

/-- Embedding of `BigQueryService.get_group_users` (171-182): the active members of the
group, provided the group row itself is active (the JOIN against `groups`).
(The source orders by alias; ordering is irrelevant to membership and
dropped here.) -/
def get_group_users (groups : List GroupRow) (group_users : List GroupUser)
    (gid : String) : List GroupUser :=
  if (groups.filter (fun g => g.id == gid && g.is_active)).isEmpty then []
  else group_users.filter (fun gu => gu.group_id == gid && gu.is_active)

/-- Python `str.strip()`. -/
def strStrip (s : String) : String :=
  String.mk
    (((s.data.dropWhile Char.isWhitespace).reverse.dropWhile
      Char.isWhitespace).reverse)

/-- The canonical member-name set built by the router endpoint
(coins.py:139-148): each member row contributes
`str(name).strip().lower()`; a member whose name is the empty string is
skipped (the `or`-chain leaves a falsy candidate). -/
def memberNames (members : List GroupUser) : List String :=
  (members.filter (fun m => m.name != "")).map (fun m => strLower (strStrip m.name))

/-- The defensive owner filter of the `get_group_coins` endpoint
(coins.py:150-172): with a non-empty member-name set, keep exactly the
owners whose stripped lowercased name is a member name; with an empty set
keep every owner (the backwards-compatible fallback of line 170-172). -/
def filterOwners (memNames : List String) (owners : List OwnerEntry) :
    List OwnerEntry :=
  if memNames.isEmpty then owners
  else owners.filter (fun ow => memNames.contains (strLower (strStrip ow.owner)))

/-- The `/coins/group/{group_name}` endpoint `get_group_coins`
(coins.py:95-198) composed end to end over the embedded tables: validate
the group by key, delegate to `get_coins_with_ownership`
(`GroupService.get_group_coins` passes straight through), then re-filter
each coin's owners against the active members' names.  `none` when the
group is unknown or inactive, or when the generated SQL is invalid. -/
def get_group_coins (groups : List GroupRow) (group_users : List GroupUser)
    (catalog : List Coin) (history : List HistoryEvent) (group_key : String)
    (f : CoinFilters) (limit offset : Nat) : Option (List CoinView) :=
  match get_group_by_key groups group_key with
  | none => none
  | some g =>
      match get_coins_with_ownership catalog history group_users g.id f
          limit offset with
      | none => none
      | some views =>
          some (views.map (fun v =>
            ⟨v.coin,
             filterOwners (memberNames (get_group_users groups group_users g.id))
               v.owners⟩))

theorem betterKey_irrefl (a : HistoryEvent) : betterKey a a = false := by
  simp [betterKey]

theorem betterKey_of_keyLt {a b : HistoryEvent} (h : keyLt b a) : betterKey a b = true := by
  rcases h with h | ⟨h1, h2⟩
  · simp [betterKey, h]
  · simp [betterKey, h1, h2]

theorem betterKey_asymm {a b : HistoryEvent} (h : betterKey a b = true) :
    betterKey b a = false := by
  simp only [betterKey, Bool.or_eq_true, Bool.and_eq_true, decide_eq_true_eq,
    beq_iff_eq] at h
  rw [Bool.eq_false_iff]
  intro habs
  simp only [betterKey, Bool.or_eq_true, Bool.and_eq_true, decide_eq_true_eq,
    beq_iff_eq] at habs
  omega

theorem foldl_latest (e : HistoryEvent) (xs : List HistoryEvent) :
    ∀ (a : HistoryEvent),
      (a = e ∨ e ∈ xs) →
      (∀ y, (y = a ∨ y ∈ xs) → y ≠ e → betterKey e y = true) →
      xs.foldl (fun acc x => if betterKey x acc then x else acc) a = e := by
  induction xs with
  | nil =>
      intro a hmem _
      simp only [List.not_mem_nil, or_false] at hmem
      simpa using hmem
  | cons x xs ih =>
      intro a hmem hdom
      have hacc : (if betterKey x a then x else a) = e ∨ e ∈ xs := by
        by_cases hxe : x = e
        · by_cases hae : a = e
          · left
            rw [hxe, hae, betterKey_irrefl]
            simp
          · have hba : betterKey e a = true := hdom a (Or.inl rfl) hae
            left
            rw [hxe, hba]
            simp
        · rcases hmem with hae | hx
          · have hbx : betterKey e x = true :=
              hdom x (Or.inr (List.mem_cons_self x xs)) hxe
            have hfa : betterKey x a = false := by
              rw [hae]; exact betterKey_asymm hbx
            left
            rw [hfa]
            simpa using hae
          · rcases List.mem_cons.mp hx with hx1 | hx2
            · exact absurd hx1.symm hxe
            · right; exact hx2
      have hdom' : ∀ y, (y = (if betterKey x a then x else a) ∨ y ∈ xs) → y ≠ e →
          betterKey e y = true := by
        intro y hy hne
        rcases hy with hy | hy
        · by_cases hcond : betterKey x a = true
          · rw [if_pos hcond] at hy
            exact hdom y (Or.inr (by simp [hy])) hne
          · rw [if_neg (by simpa using hcond)] at hy
            exact hdom y (Or.inl hy) hne
        · exact hdom y (Or.inr (List.mem_cons_of_mem x hy)) hne
      simpa using ih (if betterKey x a then x else a) hacc hdom'

theorem latestEvent_eq_of_strict_max {l : List HistoryEvent} {e : HistoryEvent}
    (he : e ∈ l) (hmax : ∀ y ∈ l, y ≠ e → betterKey e y = true) :
    latestEvent l = some e := by
  cases l with
  | nil => cases he
  | cons x xs =>
      simp only [latestEvent, Option.some.injEq]
      refine foldl_latest e xs x ?_ ?_
      · rcases List.mem_cons.mp he with h1 | h2
        · exact Or.inl h1.symm
        · exact Or.inr h2
      · intro y hy hne
        rcases hy with hy | hy
        · exact hmax y (by rw [hy]; exact List.mem_cons_self x xs) hne
        · exact hmax y (List.mem_cons_of_mem x hy) hne

theorem dedup_const {α} [DecidableEq α] (v : α) :
    ∀ (l : List α), l ≠ [] → (∀ x ∈ l, x = v) → l.dedup = [v]
  | [], hne, _ => absurd rfl hne
  | x :: xs, _, hall => by
      have hx : x = v := hall x (List.mem_cons_self x xs)
      cases hxs : xs with
      | nil => simp [hx]
      | cons y ys =>
          have hxs_ne : xs ≠ [] := by simp [hxs]
          have hmem : x ∈ xs := by
            have hy : y = v := hall y (by simp [hxs])
            rw [hxs, hx, ← hy]
            exact List.mem_cons_self y ys
          rw [← hxs, List.dedup_cons_of_mem hmem]
          exact dedup_const v xs hxs_ne (fun z hz => hall z (List.mem_cons_of_mem x hz))

/-- C1: for every `(name, coin_id)` pair and every history list, whatever the
insertion order (the position of the chronologically latest event `e` in the
list is arbitrary), `get_current_coin_ownership` reflects exactly the event
whose `(date, created_at)` tuple strictly dominates every other event of the
pair, and reports the pair as owned iff that event has `is_active = true`. -/
theorem resolve_current_latest_wins (h : List HistoryEvent) (nm c : String)
    (e : HistoryEvent) (he : e ∈ h) (hn : e.name = nm) (hc : e.coin_id = c)
    (hmax : ∀ e' ∈ h, e'.name = nm → e'.coin_id = c → e' ≠ e → keyLt e' e) :
    get_current_coin_ownership h c (some nm) =
      if e.is_active then [(nm, e.date)] else [] := by
  simp only [get_current_coin_ownership]
  have hpred : eventInScope c (some nm) e = true := by
    simp [eventInScope, hn, hc]
  have hesc : e ∈ h.filter (eventInScope c (some nm)) :=
    List.mem_filter.mpr ⟨he, hpred⟩
  have hall : ∀ y ∈ h.filter (eventInScope c (some nm)), y.name = nm ∧ y.coin_id = c := by
    intro y hy
    have := (List.mem_filter.mp hy).2
    simp only [eventInScope, Bool.and_eq_true, beq_iff_eq] at this
    exact ⟨this.2, this.1⟩
  have hnames : (((h.filter (eventInScope c (some nm))).map (·.name)).dedup) = [nm] := by
    refine dedup_const nm _ ?_ ?_
    · intro hnil
      rw [List.map_eq_nil_iff] at hnil
      rw [hnil] at hesc
      cases hesc
    · intro x hx
      rcases List.mem_map.mp hx with ⟨y, hy, hyx⟩
      rw [← hyx]
      exact (hall y hy).1
  have hfilter_self : (h.filter (eventInScope c (some nm))).filter
      (fun e => e.name == nm) = h.filter (eventInScope c (some nm)) := by
    rw [List.filter_eq_self]
    intro y hy
    simp [(hall y hy).1]
  have hdom : ∀ y ∈ h.filter (eventInScope c (some nm)), y ≠ e → betterKey e y = true := by
    intro y hy hne
    have hmem : y ∈ h := (List.mem_filter.mp hy).1
    exact betterKey_of_keyLt (hmax y hmem (hall y hy).1 (hall y hy).2 hne)
  have hlatest : latestEvent ((h.filter (eventInScope c (some nm))).filter
      (fun e => e.name == nm)) = some e := by
    rw [hfilter_self]
    exact latestEvent_eq_of_strict_max hesc hdom
  rw [hnames]
  simp only [List.filterMap_cons, List.filterMap_nil, hlatest]
  by_cases hact : e.is_active
  · simp [hact, hn]
  · simp [hact]

/-- Concrete instance of C1, the out-of-order example of the spec: an
acquisition dated 2020-01-01 inserted first, then a removal dated
2019-06-01 inserted later (greater `created_at`).  The acquisition is
chronologically latest, so the pair resolves as owned. -/
theorem resolve_current_latest_wins_witness :
    get_current_coin_ownership
      [⟨"e1", "alice", "RE1999FRA-A-RE1-100", 20200101, 1, "api", true⟩,
       ⟨"e2", "alice", "RE1999FRA-A-RE1-100", 20190601, 2, "api", false⟩]
      "RE1999FRA-A-RE1-100" (some "alice") = [("alice", 20200101)] := by
  have := resolve_current_latest_wins
    [⟨"e1", "alice", "RE1999FRA-A-RE1-100", 20200101, 1, "api", true⟩,
     ⟨"e2", "alice", "RE1999FRA-A-RE1-100", 20190601, 2, "api", false⟩]
    "alice" "RE1999FRA-A-RE1-100"
    ⟨"e1", "alice", "RE1999FRA-A-RE1-100", 20200101, 1, "api", true⟩
    (by decide) rfl rfl
    (by
      intro e' he' hn hc hne
      simp only [List.mem_cons, List.not_mem_nil, or_false] at he'
      rcases he' with rfl | rfl
      · exact absurd rfl hne
      · left; decide)
  simpa using this

/-- C3: `add_coin_ownership` fails with the already-owned conflict and
appends nothing exactly when resolving current ownership of `(name, coin_id)`
yields an active owner; otherwise it appends exactly one acquisition event
(`is_active = true`, caller-supplied `date`, server `created_at`, provenance
defaulted to `"api"`) and returns the fresh record id. -/
theorem add_coin_ownership_spec (history : List HistoryEvent) (nm coin : String)
    (date : Int) (record_id : String) (current_time : Int) (cb : Option String) :
    add_coin_ownership history nm coin date record_id current_time cb =
      if get_current_coin_ownership history coin (some nm) = [] then
        Except.ok (history ++
          [{ id := record_id, name := nm, coin_id := coin, date := date,
             created_at := current_time, created_by := cb.getD "api",
             is_active := true }], record_id)
      else Except.error ("User " ++ nm ++ " already owns coin " ++ coin) := by
  unfold add_coin_ownership
  cases h : get_current_coin_ownership history coin (some nm) <;> simp [h]

/-- C10: every row written by the bulk history import path is an
acquisition: whatever the uploaded rows say, each appended event carries the
batch's server timestamp, provenance `"import"` and `is_active = true`, so
a removal can never enter the ledger through bulk import. -/
theorem import_history_batch_only_acquisitions (history : List HistoryEvent)
    (rows : List HistoryCsvRow) (ids : List String) (current_time : Int) :
    ∀ e ∈ import_history_batch history (process_history_rows rows) ids
        current_time,
      e ∈ history ∨
        (e.is_active = true ∧ e.created_by = "import" ∧
         e.created_at = current_time) := by
  intro e he
  simp only [import_history_batch, List.mem_append] at he
  rcases he with he | he
  · exact Or.inl he
  · rcases List.mem_map.mp he with ⟨p, hp, hpe⟩
    rw [← hpe]
    exact Or.inr ⟨rfl, rfl, rfl⟩

/-- Concrete instance of C10: the single row imported from a CSV triple is
an acquisition stamped by the server. -/
theorem import_history_batch_only_acquisitions_witness :
    (⟨"u1", "bob", "X", 5, 9, "import", true⟩ : HistoryEvent) ∈
        ([] : List HistoryEvent) ∨
      ((⟨"u1", "bob", "X", 5, 9, "import", true⟩ : HistoryEvent).is_active = true ∧
       (⟨"u1", "bob", "X", 5, 9, "import", true⟩ : HistoryEvent).created_by = "import" ∧
       (⟨"u1", "bob", "X", 5, 9, "import", true⟩ : HistoryEvent).created_at = 9) :=
  import_history_batch_only_acquisitions [] [⟨"bob", "X", 5⟩] ["u1"] 9
    ⟨"u1", "bob", "X", 5, 9, "import", true⟩ (by decide)

theorem lookupCache_filter_eq_none {ρ : Type} (p : String → Bool) (k : String)
    (hk : p k = false) (cache : Cache ρ) :
    lookupCache (cache.filter (fun kv => p kv.1)) k = none := by
  induction cache with
  | nil => rfl
  | cons kv rest ih =>
      obtain ⟨k0, v, t⟩ := kv
      by_cases h0 : p k0
      · rw [List.filter_cons_of_pos (by simpa using h0)]
        have hne : (k0 == k) = false := by
          rw [beq_eq_false_iff_ne]
          intro hkk
          rw [hkk, hk] at h0
          exact absurd h0 (by simp)
        simp only [lookupCache, hne]
        simpa using ih
      · rw [List.filter_cons_of_neg (by simpa using h0)]
        exact ih

/-- C6: after a successful `add_coin_ownership` / `remove_coin_ownership`
for `(name, coin_id)`, the awaited invalidation has deleted every cache
entry whose key contains the coin id, the owner name or the ownership
marker; a subsequent read through the cache under such a key therefore
misses and returns (and stores) the adapter's fresh rows instead of any
pre-write cached rows. -/
theorem ownership_write_clears_cache {ρ : Type} (cache : Cache ρ)
    (nm coin k : String)
    (hk : strContains k coin = true ∨ strContains k nm = true ∨
      strContains (strLower k) "ownership" = true) :
    lookupCache (ownership_write_cache_after cache nm coin) k = none ∧
    ∀ (ttl : Int) (q : String) (p : List (String × PValue)) (rows : ρ)
      (now now2 : Int), get_cache_key q p = k →
      get_cached_or_query (ownership_write_cache_after cache nm coin) ttl q p
          (Except.ok rows) now now2 =
        (Except.ok rows,
          storeCache (ownership_write_cache_after cache nm coin) k rows now2) := by
  have haff : ownershipKeyAffected (some coin) (some nm) none k = true := by
    simp only [ownershipKeyAffected, Bool.or_eq_true]
    rcases hk with h | h | h
    · exact Or.inl (Or.inl (Or.inl (Or.inl h)))
    · exact Or.inl (Or.inl (Or.inl (Or.inr h)))
    · exact Or.inl (Or.inr h)
  have hnone : lookupCache (ownership_write_cache_after cache nm coin) k = none := by
    unfold ownership_write_cache_after invalidate_ownership_cache
    have hfa : (!(ownershipKeyAffected (some coin) (some nm) none k)) = false := by
      rw [haff]; exact rfl
    exact lookupCache_filter_eq_none
      (fun key => !(ownershipKeyAffected (some coin) (some nm) none key)) k hfa cache
  refine ⟨hnone, ?_⟩
  intro ttl q p rows now now2 hkey
  unfold get_cached_or_query
  rw [hkey, hnone]

theorem get_cache_key_nil (q : String) : get_cache_key q [] = q ++ ":[]" := by
  unfold get_cache_key sortParams pyReprList
  rw [List.mergeSort_nil, String.append_assoc]
  exact rfl

/-- Concrete instance of C6: a cached entry whose key contains the affected
coin id is gone after the write, and the next read under that key returns
the adapter's fresh rows. -/
theorem ownership_write_clears_cache_witness :
    lookupCache (ownership_write_cache_after
        [("coinX1:[]", (([2] : List Nat), 7))] "alice" "X1") "coinX1:[]" = none ∧
    get_cached_or_query (ownership_write_cache_after
        [("coinX1:[]", (([2] : List Nat), 7))] "alice" "X1") 5 "coinX1" []
        (Except.ok [9]) 8 9 =
      (Except.ok [9], storeCache (ownership_write_cache_after
        [("coinX1:[]", (([2] : List Nat), 7))] "alice" "X1") "coinX1:[]" [9] 9) := by
  have h := ownership_write_clears_cache (ρ := List Nat)
    [("coinX1:[]", ([2], 7))] "alice" "X1" "coinX1:[]" (Or.inl (by decide))
  exact ⟨h.1, h.2 5 "coinX1" [] [9] 8 9 (by rw [get_cache_key_nil]; exact rfl)⟩

/-- C5: a fresh cache hit (`now - cached_at < ttl`) returns the cached rows
and leaves the cache untouched, with the adapter never consulted (the result
is the same for every adapter); a miss or an expired entry runs the adapter,
stores `(rows, now)` under the key, and returns the rows. -/
theorem cache_lookup_contract {ρ : Type} (cache : Cache ρ) (ttl : Int)
    (q : String) (p : List (String × PValue)) (now now2 : Int) :
    (∀ rows, freshAt cache (get_cache_key q p) now ttl = some rows →
      ∀ adapter, get_cached_or_query cache ttl q p adapter now now2 =
        (Except.ok rows, cache)) ∧
    (∀ rows, freshAt cache (get_cache_key q p) now ttl = none →
      get_cached_or_query cache ttl q p (Except.ok rows) now now2 =
        (Except.ok rows, storeCache cache (get_cache_key q p) rows now2)) := by
  constructor
  · intro rows hfresh adapter
    simp only [freshAt] at hfresh
    simp only [get_cached_or_query]
    cases hl : lookupCache cache (get_cache_key q p) with
    | none => rw [hl] at hfresh; cases hfresh
    | some dt =>
        obtain ⟨data, t⟩ := dt
        rw [hl] at hfresh
        by_cases hts : now - t < ttl
        · simp only [hts, if_true] at hfresh
          simp only [Option.some.injEq] at hfresh
          simp [hts, hfresh]
        · simp [hts] at hfresh
  · intro rows hfresh
    simp only [freshAt] at hfresh
    simp only [get_cached_or_query]
    cases hl : lookupCache cache (get_cache_key q p) with
    | none => simp
    | some dt =>
        obtain ⟨data, t⟩ := dt
        rw [hl] at hfresh
        by_cases hts : now - t < ttl
        · simp [hts] at hfresh
        · simp [hts]

/-- Concrete instance of C5: a fresh hit is served from the cache for any
adapter outcome, and a lookup on an empty cache queries and stores. -/
theorem cache_lookup_contract_witness :
    get_cached_or_query [("q:[]", (([4] : List Nat), 0))] 5 "q" []
        (Except.error "boom") 3 3 = (Except.ok [4], [("q:[]", ([4], 0))]) ∧
    get_cached_or_query ([] : Cache (List Nat)) 5 "q" [] (Except.ok [8]) 3 3 =
      (Except.ok [8], storeCache [] "q:[]" [8] 3) := by
  constructor
  · exact (cache_lookup_contract [("q:[]", ([4], 0))] 5 "q" [] 3 3).1 [4]
      (by rw [get_cache_key_nil]; decide) (Except.error "boom")
  · have h := (cache_lookup_contract ([] : Cache (List Nat)) 5 "q" [] 3 3).2 [8]
      (by rw [get_cache_key_nil]; decide)
    rw [get_cache_key_nil] at h
    exact h

/-- C9: when the warehouse adapter fails on a miss or an expired entry, the
error propagates to the caller and the cache is left exactly as it was — a
failed query is never stored, so no later lookup can hit an entry produced
by it. -/
theorem adapter_error_not_cached {ρ : Type} (cache : Cache ρ) (ttl : Int)
    (q : String) (p : List (String × PValue)) (e : String) (now now2 : Int)
    (hmiss : freshAt cache (get_cache_key q p) now ttl = none) :
    get_cached_or_query cache ttl q p (Except.error e) now now2 =
      (Except.error e, cache) := by
  simp only [freshAt] at hmiss
  simp only [get_cached_or_query]
  cases hl : lookupCache cache (get_cache_key q p) with
  | none => simp
  | some dt =>
      obtain ⟨data, t⟩ := dt
      rw [hl] at hmiss
      by_cases hts : now - t < ttl
      · simp [hts] at hmiss
      · simp [hts]

/-- Concrete instance of C9: an adapter failure on an expired entry leaves
the stale entry (and nothing else) in the cache and surfaces the error. -/
theorem adapter_error_not_cached_witness :
    get_cached_or_query [("q:[]", (([4] : List Nat), 0))] 5 "q" []
        (Except.error "boom") 99 99 =
      (Except.error "boom", [("q:[]", ([4], 0))]) :=
  adapter_error_not_cached [("q:[]", ([4], 0))] 5 "q" [] "boom" 99 99
    (by rw [get_cache_key_nil]; decide)

theorem pvalLe_total (a b : PValue) : pvalLe a b = true ∨ pvalLe b a = true := by
  cases a with
  | str x =>
    cases b with
    | str y => simpa [pvalLe] using le_total x y
    | int y => simp [pvalLe]
  | int x =>
    cases b with
    | str y => simp [pvalLe]
    | int y => simpa [pvalLe] using le_total x y

theorem pvalLe_trans {a b c : PValue} (h1 : pvalLe a b = true)
    (h2 : pvalLe b c = true) : pvalLe a c = true := by
  cases a with
  | str x =>
    cases b with
    | str y =>
      cases c with
      | str z =>
        simp only [pvalLe, decide_eq_true_eq] at h1 h2 ⊢
        exact le_trans h1 h2
      | int z => simp [pvalLe] at h2
    | int y => simp [pvalLe] at h1
  | int x =>
    cases b with
    | str y =>
      cases c with
      | str z => simp [pvalLe]
      | int z => simp [pvalLe] at h2
    | int y =>
      cases c with
      | str z => simp [pvalLe]
      | int z =>
        simp only [pvalLe, decide_eq_true_eq] at h1 h2 ⊢
        omega

theorem pvalLe_antisymm {a b : PValue} (h1 : pvalLe a b = true)
    (h2 : pvalLe b a = true) : a = b := by
  cases a with
  | str x =>
    cases b with
    | str y =>
      simp only [pvalLe, decide_eq_true_eq] at h1 h2
      exact congrArg PValue.str (le_antisymm h1 h2)
    | int y => simp [pvalLe] at h1
  | int x =>
    cases b with
    | str y => simp [pvalLe] at h2
    | int y =>
      simp only [pvalLe, decide_eq_true_eq] at h1 h2
      exact congrArg PValue.int (by omega)

theorem paramLe_total (a b : String × PValue) :
    (paramLe a b || paramLe b a) = true := by
  simp only [paramLe, Bool.or_eq_true, decide_eq_true_eq, Bool.and_eq_true,
    beq_iff_eq]
  rcases lt_trichotomy a.1 b.1 with h | h | h
  · exact Or.inl (Or.inl h)
  · rcases pvalLe_total a.2 b.2 with hv | hv
    · exact Or.inl (Or.inr ⟨h, hv⟩)
    · exact Or.inr (Or.inr ⟨h.symm, hv⟩)
  · exact Or.inr (Or.inl h)

theorem paramLe_trans (a b c : String × PValue) (h1 : paramLe a b = true)
    (h2 : paramLe b c = true) : paramLe a c = true := by
  simp only [paramLe, Bool.or_eq_true, decide_eq_true_eq, Bool.and_eq_true,
    beq_iff_eq] at h1 h2 ⊢
  rcases h1 with h1 | ⟨h1e, h1v⟩
  · rcases h2 with h2 | ⟨h2e, h2v⟩
    · exact Or.inl (lt_trans h1 h2)
    · exact Or.inl (h2e ▸ h1)
  · rcases h2 with h2 | ⟨h2e, h2v⟩
    · exact Or.inl (h1e ▸ h2)
    · exact Or.inr ⟨h1e.trans h2e, pvalLe_trans h1v h2v⟩

theorem paramLe_antisymm (a b : String × PValue) (h1 : paramLe a b = true)
    (h2 : paramLe b a = true) : a = b := by
  simp only [paramLe, Bool.or_eq_true, decide_eq_true_eq, Bool.and_eq_true,
    beq_iff_eq] at h1 h2
  rcases h1 with h1 | ⟨h1e, h1v⟩
  · rcases h2 with h2 | ⟨h2e, h2v⟩
    · exact absurd h2 (lt_asymm h1)
    · exact absurd (h2e ▸ h1) (lt_irrefl _)
  · rcases h2 with h2 | ⟨h2e, h2v⟩
    · exact absurd (h1e ▸ h2) (lt_irrefl _)
    · exact Prod.ext h1e (pvalLe_antisymm h1v h2v)

/-- C8: the cache key is a deterministic, order-independent function of the
query text and the parameter set: two parameter maps holding exactly the
same `(key, value)` items, in any iteration order, produce the identical
cache key, so semantically identical reads hit the same cache entry. -/
theorem get_cache_key_order_independent (q : String)
    (p1 p2 : List (String × PValue)) (hp : p1.Perm p2) :
    get_cache_key q p1 = get_cache_key q p2 := by
  have hsort : sortParams p1 = sortParams p2 := by
    unfold sortParams
    haveI : IsAntisymm (String × PValue) (fun a b => paramLe a b = true) :=
      ⟨fun a b h1 h2 => paramLe_antisymm a b h1 h2⟩
    refine List.eq_of_perm_of_sorted
      (r := fun a b => paramLe a b = true) ?_ ?_ ?_
    · exact (List.mergeSort_perm p1 paramLe).trans
        (hp.trans (List.mergeSort_perm p2 paramLe).symm)
    · exact List.sorted_mergeSort paramLe_trans paramLe_total p1
    · exact List.sorted_mergeSort paramLe_trans paramLe_total p2
  unfold get_cache_key
  rw [hsort]

/-- Concrete instance of C8: swapping two parameter items leaves the cache
key unchanged. -/
theorem get_cache_key_order_independent_witness :
    get_cache_key "SELECT" [("b", PValue.int 2), ("a", PValue.str "x")] =
      get_cache_key "SELECT" [("a", PValue.str "x"), ("b", PValue.int 2)] :=
  get_cache_key_order_independent "SELECT"
    [("b", PValue.int 2), ("a", PValue.str "x")]
    [("a", PValue.str "x"), ("b", PValue.int 2)] (by decide)

/-- C4 (code defect): a Group Directory mutation returns successfully while
the shared cache still holds a pre-mutation entry whose key contains
`"group"`.  `create_group` ends with `self._invalidate_group_cache()` NOT
awaited (bigquery_service.py:519), so the helper body never runs; the stale
entry for an active-groups query survives the successful creation, although
`_invalidate_group_cache`, had it run, would have removed it (last
conjunct). -/
theorem create_group_leaves_group_cache_stale :
    create_group ([] : List GroupRow)
        [("list_groups:[]", (([3] : List Nat), 0))] "friends" "Friends"
        "gid1" =
      Except.ok ([⟨"gid1", "friends", "Friends", true⟩],
        [("list_groups:[]", ([3], 0))], "gid1") ∧
    strContains "list_groups:[]" "group" = true ∧
    lookupCache [("list_groups:[]", (([3] : List Nat), 0))] "list_groups:[]" =
      some ([3], 0) ∧
    invalidate_group_cache [("list_groups:[]", (([3] : List Nat), 0))] = [] := by
  refine ⟨rfl, by decide, rfl, by decide⟩


theorem feats_lookup_eq (catalog : List Coin) (ids : List String)
    (cid : String) :
    List.lookup cid (get_existing_coins_features catalog ids) =
      (catalog.find?
        (fun c => ids.contains c.coin_id && c.coin_id == cid)).map
        (·.feature) := by
  induction catalog with
  | nil => rfl
  | cons c cs ih =>
      simp only [get_existing_coins_features] at ih ⊢
      rw [List.filter_cons, List.find?_cons]
      by_cases hin : ids.contains c.coin_id = true
      · rw [hin]
        by_cases hc : c.coin_id = cid
        · have hb : (c.coin_id == cid) = true := by simp [hc]
          have hb2 : (cid == c.coin_id) = true := by simp [hc]
          simp only [if_true, hb, Bool.true_and, List.map_cons,
            List.lookup_cons, hb2, Option.map_some']
        · have hb : (c.coin_id == cid) = false := by simp [hc]
          have hb2 : (cid == c.coin_id) = false := by
            rw [beq_eq_false_iff_ne]
            exact fun h => hc h.symm
          simp only [if_true, hb, Bool.true_and, List.map_cons,
            List.lookup_cons, hb2]
          exact ih
      · have hin' : ids.contains c.coin_id = false := by
          rwa [Bool.not_eq_true] at hin
        rw [hin']
        simp only [if_false, Bool.false_and]
        exact ih

/-- C7: `upload_coins_csv` assigns each uploaded row exactly one status —
`new` iff its `coin_id` is absent from the catalog, `duplicate` iff present
with the stored feature equal after empty-normalization, `conflict` iff
present with differing normalized features — and a conflicting row is never
written over the stored coin: any selected row whose id already exists in
the catalog makes the commit-time guard of `import_selected_coins` abort
the whole import. -/
theorem classify_coin_upload_spec (catalog uploaded : List Coin)
    (hnodup : (catalog.map (·.coin_id)).Nodup) :
    (∀ p ∈ classify_coin_upload catalog uploaded,
      ((p.2 = UploadStatus.new ↔ ∀ c ∈ catalog, c.coin_id ≠ p.1.coin_id) ∧
       ∀ c ∈ catalog, c.coin_id = p.1.coin_id →
         ((p.2 = UploadStatus.duplicate ↔
            normFeature c.feature = normFeature p.1.feature) ∧
          (p.2 = UploadStatus.conflict ↔
            normFeature c.feature ≠ normFeature p.1.feature)))) ∧
    (∀ selected : List Coin, ∀ u ∈ selected,
      (∃ c ∈ catalog, c.coin_id = u.coin_id) →
      ∃ msg, import_selected catalog selected = Except.error msg) := by
  constructor
  · intro p hp
    obtain ⟨u, hu, hpu⟩ := List.mem_map.mp hp
    have hp1 : p.1 = u := by rw [← hpu]
    have hp2 : p.2 = classify_coin
        (get_existing_coins_features catalog (uploaded.map (·.coin_id))) u := by
      rw [← hpu]
    have hcid : (uploaded.map (·.coin_id)).contains u.coin_id = true := by
      have hm : u.coin_id ∈ uploaded.map (·.coin_id) :=
        List.mem_map_of_mem _ hu
      exact List.elem_iff.mpr hm
    rw [hp1, hp2]
    unfold classify_coin
    rw [feats_lookup_eq]
    cases hfind : catalog.find?
        (fun c => (uploaded.map (·.coin_id)).contains c.coin_id &&
          c.coin_id == u.coin_id) with
    | none =>
        have hnofind := List.find?_eq_none.mp hfind
        simp only [Option.map_none']
        constructor
        · constructor
          · intro _ c hc hce
            have hno := hnofind c hc
            simp only [Bool.and_eq_true, beq_iff_eq, not_and] at hno
            rw [hce] at hno
            exact hno hcid rfl
          · intro _
            trivial
        · intro c hc hce
          have hno := hnofind c hc
          simp only [Bool.and_eq_true, beq_iff_eq, not_and] at hno
          rw [hce] at hno
          exact absurd rfl (hno hcid)
    | some c0 =>
        have hpred := List.find?_some hfind
        simp only [Bool.and_eq_true, beq_iff_eq] at hpred
        have hc0mem := List.mem_of_find?_eq_some hfind
        have hc0id : c0.coin_id = u.coin_id := hpred.2
        simp only [Option.map_some']
        by_cases hf : normFeature c0.feature = normFeature u.feature
        · have hne : (normFeature c0.feature != normFeature u.feature) = false := by
            simp [hf]
          rw [hne, if_neg (by simp)]
          constructor
          · constructor
            · intro h; cases h
            · intro hall
              exact absurd hc0id (hall c0 hc0mem)
          · intro c hc hce
            have hcc0 : c = c0 :=
              List.inj_on_of_nodup_map hnodup hc hc0mem (by rw [hce, hc0id])
            subst hcc0
            constructor
            · constructor
              · intro _
                exact hf
              · intro _
                rfl
            · constructor
              · intro h
                cases h
              · intro h
                exact absurd hf h
        · have hne : (normFeature c0.feature != normFeature u.feature) = true := by
            simp [hf]
          rw [hne, if_pos rfl]
          constructor
          · constructor
            · intro h; cases h
            · intro hall
              exact absurd hc0id (hall c0 hc0mem)
          · intro c hc hce
            have hcc0 : c = c0 :=
              List.inj_on_of_nodup_map hnodup hc hc0mem (by rw [hce, hc0id])
            subst hcc0
            constructor
            · constructor
              · intro h
                cases h
              · intro h
                exact absurd h hf
            · constructor
              · intro _
                exact hf
              · intro _
                rfl
  · intro selected u hu hex
    obtain ⟨c, hc, hce⟩ := hex
    have hne : selected.isEmpty = false := by
      cases selected with
      | nil => cases hu
      | cons a l => rfl
    have hmem : u.coin_id ∈ get_existing_coin_ids catalog
        (selected.map (·.coin_id)) := by
      unfold get_existing_coin_ids
      rw [List.mem_dedup]
      have hcf : c ∈ catalog.filter
          (fun c' => (selected.map (·.coin_id)).contains c'.coin_id) := by
        refine List.mem_filter.mpr ⟨hc, ?_⟩
        have hm : c.coin_id ∈ selected.map (·.coin_id) := by
          rw [hce]
          exact List.mem_map_of_mem _ hu
        exact List.elem_iff.mpr hm
      have h2 : c.coin_id ∈ (catalog.filter
          (fun c' => (selected.map (·.coin_id)).contains c'.coin_id)).map
          (·.coin_id) := List.mem_map_of_mem _ hcf
      rw [hce] at h2
      exact h2
    unfold import_selected
    rw [if_neg (by simp [hne])]
    cases hids : get_existing_coin_ids catalog (selected.map (·.coin_id)) with
    | nil => rw [hids] at hmem; cases hmem
    | cons a l => exact ⟨_, rfl⟩

/-- Concrete instance of C7: re-uploading id `X` with feature `B` against a
catalog storing feature `A` for `X` yields a conflict row, and selecting it
for import is rejected by the commit-time guard. -/
theorem classify_coin_upload_spec_witness :
    ∃ msg,
      import_selected
        [⟨"CC", 2004, "Greece", "CC-2004", 2, "X", none, some "A", none⟩]
        [⟨"CC", 2004, "Greece", "CC-2004", 2, "X", none, some "B", none⟩] =
        Except.error msg :=
  (classify_coin_upload_spec
      [⟨"CC", 2004, "Greece", "CC-2004", 2, "X", none, some "A", none⟩]
      [⟨"CC", 2004, "Greece", "CC-2004", 2, "X", none, some "B", none⟩]
      (by decide)).2
    [⟨"CC", 2004, "Greece", "CC-2004", 2, "X", none, some "B", none⟩]
    ⟨"CC", 2004, "Greece", "CC-2004", 2, "X", none, some "B", none⟩
    (by decide)
    ⟨⟨"CC", 2004, "Greece", "CC-2004", 2, "X", none, some "A", none⟩,
      by decide, rfl⟩

theorem mem_get_group_users {groups : List GroupRow}
    {group_users : List GroupUser} {gid : String} {m : GroupUser}
    (hm : m ∈ get_group_users groups group_users gid) :
    m ∈ group_users ∧ m.group_id = gid ∧ m.is_active = true := by
  unfold get_group_users at hm
  by_cases hg : (groups.filter (fun g => g.id == gid && g.is_active)).isEmpty
  · rw [if_pos hg] at hm
    cases hm
  · rw [if_neg hg] at hm
    have h2 := List.mem_filter.mp hm
    have h3 := h2.2
    simp only [Bool.and_eq_true, beq_iff_eq] at h3
    exact ⟨h2.1, h3.1, h3.2⟩

/-- C2 counterexample: `"carol"` owns coin `X` globally and is not a member
of the active group `friends` (which has no members at all), yet the
`get_group_coins` pipeline reports her in the coin's owners list: the SQL of
`get_coins_with_ownership` LEFT-JOINs the membership, so non-member owners
survive with their raw name as alias, and the router's defensive filter
keeps every owner when the group's member list is empty. -/
theorem group_coins_nonmember_owner_counterexample :
    get_group_coins [⟨"g1", "friends", "Friends", true⟩] []
        [⟨"RE", 1999, "France", "RE-1999", 1, "X", none, none, none⟩]
        [⟨"e1", "carol", "X", 10, 1, "api", true⟩] "friends"
        ⟨none, none, none, none, none, none⟩ 100 0 =
      some [⟨⟨"RE", 1999, "France", "RE-1999", 1, "X", none, none, none⟩,
        [⟨"carol", "carol", 10⟩]⟩] := by
  decide

/-- C2 amended: provided the group resolved for the request has at least one
active member with a non-empty name, every owner entry of every coin
returned by the `get_group_coins` endpoint matches an active member of that
group, case-insensitively after stripping — the exclusion is enforced by
the endpoint's defensive re-filter (coins.py:150-172), not by the SQL of
`get_coins_with_ownership`, and it lapses for a member-less group. -/
theorem group_coins_owners_are_members (groups : List GroupRow)
    (group_users : List GroupUser) (catalog : List Coin)
    (history : List HistoryEvent) (gk : String) (f : CoinFilters)
    (limit offset : Nat) (g : GroupRow) (views : List CoinView)
    (hg : get_group_by_key groups gk = some g)
    (hres : get_group_coins groups group_users catalog history gk f limit
      offset = some views)
    (hmem : memberNames (get_group_users groups group_users g.id) ≠ []) :
    ∀ v ∈ views, ∀ ow ∈ v.owners,
      ∃ m ∈ group_users, m.group_id = g.id ∧ m.is_active = true ∧
        strLower (strStrip m.name) = strLower (strStrip ow.owner) := by
  intro v hv ow how
  unfold get_group_coins at hres
  split at hres
  · exact Option.noConfusion hres
  · rename_i g' heq
    rw [hg] at heq
    injection heq with heq
    subst heq
    split at hres
    · exact Option.noConfusion hres
    · rename_i inner hq
      injection hres with hres
      subst hres
      obtain ⟨v0, hv0, hveq⟩ := List.mem_map.mp hv
      rw [← hveq] at how
      have how2 : ow ∈ filterOwners
          (memberNames (get_group_users groups group_users g.id))
          v0.owners := how
      unfold filterOwners at how2
      rw [if_neg (by simp [List.isEmpty_eq_false.mpr hmem])] at how2
      have hcont := (List.mem_filter.mp how2).2
      have hsmem : strLower (strStrip ow.owner) ∈
          memberNames (get_group_users groups group_users g.id) :=
        List.elem_iff.mp hcont
      obtain ⟨m, hm, hmn⟩ := List.mem_map.mp hsmem
      have hgu := mem_get_group_users (List.mem_filter.mp hm).1
      exact ⟨m, hgu.1, hgu.2.1, hgu.2.2, hmn⟩

/-- Concrete instance of the amended C2: with `"carol"` an active member of
the group, her owner entry (carrying her group alias) matches that
membership row. -/
theorem group_coins_owners_are_members_witness :
    ∃ m ∈ [(⟨"m1", "g1", "carol", some "Caz", true⟩ : GroupUser)],
      m.group_id = "g1" ∧ m.is_active = true ∧
        strLower (strStrip m.name) =
          strLower (strStrip (⟨"carol", "Caz", 10⟩ : OwnerEntry).owner) :=
  group_coins_owners_are_members [⟨"g1", "friends", "Friends", true⟩]
    [⟨"m1", "g1", "carol", some "Caz", true⟩]
    [⟨"RE", 1999, "France", "RE-1999", 1, "X", none, none, none⟩]
    [⟨"e1", "carol", "X", 10, 1, "api", true⟩] "friends"
    ⟨none, none, none, none, none, none⟩ 100 0
    ⟨"g1", "friends", "Friends", true⟩
    [⟨⟨"RE", 1999, "France", "RE-1999", 1, "X", none, none, none⟩,
      [⟨"carol", "Caz", 10⟩]⟩]
    (by decide) (by decide) (by decide)
    ⟨⟨"RE", 1999, "France", "RE-1999", 1, "X", none, none, none⟩,
      [⟨"carol", "Caz", 10⟩]⟩
    (by decide) ⟨"carol", "Caz", 10⟩ (by decide)
